import Mathlib

/-!
Verification development for the world-construction core of the SpaceWalk game
engine (src/engine.hpp).  The C++ data model and operations are shallowly
embedded: `std::unique_ptr<Object>` handles become `Option Item` (a `none`
handle is a null pointer), `std::shared_ptr` identities (rooms in a vector of
`node`, entities in a vector of `ent`) become indices into the owning registry
list, `std::map<int, std::vector<int>>` becomes a sorted association list with
insert-without-overwrite, and tinyxml2 extraction becomes record structures
whose `Option` fields model a missing child element (dereferenced by the
loader, hence a crash) or a failed integer parse (which leaves the
pre-initialised 0 in place).  A result of `none` on a stateful operation
models undefined behaviour (a null-pointer dereference): the call never
returns normally.
-/

namespace SpaceWalk

/-- The enum LockStatus of the source: two states, locked and unlocked. -/
inductive LockStatus where
  | locked
  | unlocked
  deriving DecidableEq, Repr

/-- The Object class hierarchy of the source: a plain Object with
objectName, objID, objectDescriptor, and the Key subclass that additionally
carries keyID (the id of the room it should open). -/
inductive Item where
  | obj (objectName : String) (objID : Int) (objectDescriptor : String)
  | key (keyID : Int) (objectName : String) (objID : Int) (objectDescriptor : String)
  deriving DecidableEq, Repr

/-- Object::Object(n, id, d): stores the three fields, with no validation. -/
def Object.construct (n : String) (id : Int) (d : String) : Item :=
  Item.obj n id d

/-- Key::Key(kid, n, id, d). -/
def Key.construct (kid : Int) (n : String) (id : Int) (d : String) : Item :=
  Item.key kid n id d

/-- Object::getName. -/
def Item.getName : Item → String
  | .obj n _ _ => n
  | .key _ n _ _ => n

/-- Object::getID: returns objID for both variants (Key has no accessor for
keyID in the source). -/
def Item.getID : Item → Int
  | .obj _ i _ => i
  | .key _ _ i _ => i

/-- Object::getDescription. -/
def Item.getDescription : Item → String
  | .obj _ _ d => d
  | .key _ _ _ d => d

/-- dynamic_cast<Key*>(p): the pointer unchanged when it points at a Key,
null otherwise (including when p itself is null). -/
def dynCastKey : Option Item → Option Item
  | some (Item.key k n i d) => some (Item.key k n i d)
  | _ => none

/-- dynamic_cast<Object*>(p) for p of static type Key*: an upcast, always the
same pointer (null stays null). -/
def dynCastObject : Option Item → Option Item :=
  fun p => p

/-- std::make_unique<Object>(*o): dereferences o (undefined behaviour when o
is null, modelled as `none`) and copies only the Object part of the pointee,
slicing a Key down to a plain Object. -/
def derefCopyAsObject : Option Item → Option Item
  | none => none
  | some it => some (Item.obj it.getName it.getID it.getDescription)

/-- The Entity class: a name and an inventory of owned items
(vector of unique_ptr, so entries can be null).  The integer stat fields of
the source (hp, stamina, ...) are never initialised nor read by the core and
are omitted. -/
structure EntityState where
  name : String
  inventory : List (Option Item)
  deriving DecidableEq, Repr

/-- Entity::Entity(n): stores the name, empty inventory, no validation. -/
def Entity.construct (n : String) : EntityState :=
  { name := n, inventory := [] }

/-- Entity::addItem(item& i): inventory.push_back(std::move(i)); the moved
from unique_ptr handle of the caller becomes null. -/
def EntityState.addItem (e : EntityState) (i : Option Item) :
    EntityState × Option Item :=
  ({ e with inventory := e.inventory ++ [i] }, none)

/-- Entity::addItems(items& i): moves every element of the source vector into
the inventory, leaving the source vector as a vector of null handles. -/
def EntityState.addItems (e : EntityState) (l : List (Option Item)) :
    EntityState × List (Option Item) :=
  ({ e with inventory := e.inventory ++ l }, l.map fun _ => none)

/-- The Room class.  The shared_ptr contents of roomPopulation and neighbours
are modelled as indices into the owning World registries (population and
worldRooms respectively): an index stands for the pointer identity. -/
structure RoomState where
  roomName : String
  roomID : Int
  description : String
  lock : LockStatus
  roomPopulation : List Nat
  neighbours : List Nat
  inventory : List (Option Item)
  deriving DecidableEq, Repr

/-- Room::Room(n, id, desc): stores the fields, lock starts locked,
no validation of the name or id. -/
def Room.construct (n : String) (id : Int) (desc : String) : RoomState :=
  { roomName := n, roomID := id, description := desc, lock := LockStatus.locked,
    roomPopulation := [], neighbours := [], inventory := [] }

/-- Room::addNeighbour(node& nn): neighbours.push_back(nn). -/
def RoomState.addNeighbour (r : RoomState) (nn : Nat) : RoomState :=
  { r with neighbours := r.neighbours ++ [nn] }

/-- Room::addNeighbours(nodes& ns): pushes a copy of every node. -/
def RoomState.addNeighbours (r : RoomState) (ns : List Nat) : RoomState :=
  { r with neighbours := r.neighbours ++ ns }

/-- Room::addItem(item& i): inventory.emplace_back(std::move(i)); the
caller handle becomes null. -/
def RoomState.addItem (r : RoomState) (i : Option Item) :
    RoomState × Option Item :=
  ({ r with inventory := r.inventory ++ [i] }, none)

/-- Room::addItems(items& inv): moves every element in. -/
def RoomState.addItems (r : RoomState) (l : List (Option Item)) :
    RoomState × List (Option Item) :=
  ({ r with inventory := r.inventory ++ l }, l.map fun _ => none)

/-- Room::addEntity(ent& e): roomPopulation.push_back(e), a shared reference,
modelled as the index of the entity in the World population registry. -/
def RoomState.addEntity (r : RoomState) (e : Nat) : RoomState :=
  { r with roomPopulation := r.roomPopulation ++ [e] }

/-- Room::addEntities(entities& ents). -/
def RoomState.addEntities (r : RoomState) (es : List Nat) : RoomState :=
  { r with roomPopulation := r.roomPopulation ++ es }

/-- Room::setLock(LockStatus stat): lock = stat. -/
def RoomState.setLock (r : RoomState) (stat : LockStatus) : RoomState :=
  { r with lock := stat }

/-- Room::unlock(item& k, node r), line by line:

  Key* k2r = dynamic_cast<Key*>(k.release());
  if (k2r != nullptr and k->getID() == r->getID())
    r->setLock(unlocked); delete k2r; return true;
  Object* o = dynamic_cast<Object*>(k2r);
  k = std::make_unique<Object>(*o);
  return false;

After k.release() the handle k is null, so the guard reads getID through a
null pointer whenever k2r is non-null; and in the fall-through path k2r is
null (the dynamic_cast failed), so *o dereferences null.  A `none` result
models that undefined behaviour; a defined execution would return
(success flag, handle left in k, room after the call). -/
def Room.unlock (k : Option Item) (r : RoomState) :
    Option (Bool × Option Item × RoomState) :=
  let kAfterRelease : Option Item := none
  let k2r : Option Item := dynCastKey k
  if k2r.isSome then
    match kAfterRelease with
    | none => none
    | some kv =>
      if kv.getID = r.roomID then
        some (true, none, r.setLock LockStatus.unlocked)
      else
        match derefCopyAsObject (dynCastObject k2r) with
        | none => none
        | some copied => some (false, some copied, r)
  else
    match derefCopyAsObject (dynCastObject k2r) with
    | none => none
    | some copied => some (false, some copied, r)

/-- The operations the engine itself performs on a Room after construction.
Room::setLock appears in the source only inside Room::unlock (with argument
unlocked); no code path of the core invokes it directly, so it is represented
here only through `unlockWith`. -/
inductive RoomOp where
  | addItem (i : Option Item)
  | addItems (l : List (Option Item))
  | addNeighbour (n : Nat)
  | addNeighbours (ns : List Nat)
  | addEntity (e : Nat)
  | addEntities (es : List Nat)
  | unlockWith (k : Option Item)
  deriving DecidableEq, Repr

/-- Effect of one core operation on a room; `none` models a call that does
not return (undefined behaviour inside Room::unlock). -/
def applyRoomOp (op : RoomOp) (r : RoomState) : Option RoomState :=
  match op with
  | RoomOp.addItem i => some (r.addItem i).1
  | RoomOp.addItems l => some (r.addItems l).1
  | RoomOp.addNeighbour n => some (r.addNeighbour n)
  | RoomOp.addNeighbours ns => some (r.addNeighbours ns)
  | RoomOp.addEntity e => some (r.addEntity e)
  | RoomOp.addEntities es => some (r.addEntities es)
  | RoomOp.unlockWith k => (Room.unlock k r).map (fun t => t.2.2)

/-- A sequence of core operations applied in order. -/
def applyRoomOps : List RoomOp → RoomState → Option RoomState
  | [], r => some r
  | op :: rest, r =>
    match applyRoomOp op r with
    | none => none
    | some r2 => applyRoomOps rest r2

/-- The World class: title, room registry, population registry, and the
transient connection map (std::map, keys sorted and unique). -/
structure WorldState where
  title : String
  worldRooms : List RoomState
  population : List EntityState
  roomConnectionMap : List (Int × List Int)
  deriving DecidableEq, Repr

/-- World::World(): default construction, everything empty. -/
def World.empty : WorldState :=
  { title := "", worldRooms := [], population := [], roomConnectionMap := [] }

/-- std::map<int, std::vector<int>>::insert(make_pair(k, v)): keeps the map
sorted by key and does nothing when the key is already present (insert does
not overwrite). -/
def mapInsert : List (Int × List Int) → Int → List Int → List (Int × List Int)
  | [], k, v => [(k, v)]
  | (k0, v0) :: rest, k, v =>
    if k < k0 then (k, v) :: (k0, v0) :: rest
    else if k = k0 then (k0, v0) :: rest
    else (k0, v0) :: mapInsert rest k v

/-- Lookup of a key in the association list modelling the std::map. -/
def mapLookup : List (Int × List Int) → Int → Option (List Int)
  | [], _ => none
  | (k0, v0) :: rest, k => if k = k0 then some v0 else mapLookup rest k

/-- Keys strictly increasing: the representation invariant of the std::map
model (holds for every map built from the empty map by mapInsert). -/
def mapSorted : List (Int × List Int) → Bool
  | [] => true
  | [_] => true
  | (k0, _) :: (k1, v1) :: rest =>
    decide (k0 < k1) && mapSorted ((k1, v1) :: rest)

/-- Left-biased choice on Option, used to state lookup laws. -/
def orElseO : Option α → Option α → Option α
  | some v, _ => some v
  | none, b => b

/-- Mutate the last element of a vector (worldRooms.back() after a push_back
is always the element just appended; an empty vector never occurs at the call
sites). -/
def updateLast : List α → (α → α) → List α
  | [], _ => []
  | [a], f => [f a]
  | a :: rest, f => a :: updateLast rest f

/-- Point update of a registry slot, used to model a mutation performed
through an iterator or shared_ptr into the registry. -/
def updateAt : List α → Nat → (α → α) → List α
  | [], _, _ => []
  | a :: rest, 0, f => f a :: rest
  | a :: rest, n + 1, f => a :: updateAt rest n f

/-- Consecutive indices start, start+1, ..., start+n-1. -/
def idxRange (start n : Nat) : List Nat :=
  (List.range n).map (fun j => start + j)

/-- First index holding the given id, mirroring std::find_if from begin(). -/
def findIdxFrom : List Int → Int → Option Nat
  | [], _ => none
  | x :: rest, i =>
    if x = i then some 0 else (findIdxFrom rest i).map (fun m => m + 1)

/-- The linear scan of World::connectRooms: first room of the registry whose
getID() equals the wanted id, as an index (the iterator position). -/
def lookupRoomIdx (rooms : List RoomState) (i : Int) : Option Nat :=
  findIdxFrom (rooms.map (fun r => r.roomID)) i

/-- An object element of the story tree.  A `none` field models a missing
child element (or null GetText), which the loader dereferences: the load
crashes.  In `id`, `some none` models an id element whose text is not an
integer: XMLElement::QueryIntText reports the failure, which the loader
ignores, leaving the pre-initialised 0. -/
structure ObjRecord where
  name : Option String
  description : Option String
  id : Option (Option Int)
  deriving DecidableEq, Repr

/-- An entity element: a name child and an inventory child of object
elements; `none` models the missing child element. -/
structure EntRecord where
  name : Option String
  inventory : Option (List ObjRecord)
  deriving DecidableEq, Repr

/-- A room element: name, description, id, an inventory block, a connections
block (each entry the text of an id element, `none` when not an integer), and
nested entity elements. -/
structure RoomRecord where
  name : Option String
  description : Option String
  id : Option (Option Int)
  inventory : Option (List ObjRecord)
  connections : Option (List (Option Int))
  entityRecords : List EntRecord
  deriving DecidableEq, Repr

/-- QueryIntText into a variable initialised to 0: the parsed value on
success, 0 when the text does not parse as an integer. -/
def readIntText : Option Int → Int
  | some v => v
  | none => 0

/-- World::makeInventory: for each object element extract name, description
and id and build a plain Object; a missing child is dereferenced (crash). -/
def World.makeInventory : List ObjRecord → Option (List (Option Item))
  | [] => some []
  | o :: rest =>
    match o.name, o.description, o.id with
    | some n, some d, some idt =>
      match World.makeInventory rest with
      | some tail => some (some (Item.obj n (readIntText idt) d) :: tail)
      | none => none
    | _, _, _ => none

/-- World::trackConnections: collect the integer values of the id elements of
a connections block (0 for unparsable text). -/
def World.trackConnections (conns : List (Option Int)) : List Int :=
  conns.map readIntText

/-- World::RoomFactory: construct a Room and append it to worldRooms. -/
def World.RoomFactory (w : WorldState) (name : String) (id : Int)
    (desc : String) : WorldState :=
  { w with worldRooms := w.worldRooms ++ [Room.construct name id desc] }

/-- World::EntityFactory: construct an Entity and append it to population. -/
def World.EntityFactory (w : WorldState) (name : String) : WorldState :=
  { w with population := w.population ++ [Entity.construct name] }

/-- World::loadEntities: for each entity element, extract the name, build the
inventory via makeInventory, append a new Entity to population and move the
inventory into it; returns the world and the number of entities created. -/
def World.loadEntities (w : WorldState) :
    List EntRecord → Option (WorldState × Nat)
  | [] => some (w, 0)
  | e :: rest =>
    match e.name, e.inventory with
    | some n, some invRecs =>
      match World.makeInventory invRecs with
      | none => none
      | some inv =>
        let newEnt := ((Entity.construct n).addItems inv).1
        let w2 := { w with population := w.population ++ [newEnt] }
        match World.loadEntities w2 rest with
        | none => none
        | some (w3, c) => some (w3, c + 1)
    | _, _ => none

/-- The inner inventory loop of World::loadRooms: each object element is
extracted and pushed onto worldRooms.back() through Room::addItem. -/
def World.loadRoomInventoryIntoLast (w : WorldState) :
    List ObjRecord → Option WorldState
  | [] => some w
  | o :: rest =>
    match o.name, o.description, o.id with
    | some n, some d, some idt =>
      let tmpItem : Option Item := some (Item.obj n (readIntText idt) d)
      let w2 := { w with worldRooms := updateLast w.worldRooms (fun r => (r.addItem tmpItem).1) }
      World.loadRoomInventoryIntoLast w2 rest
    | _, _, _ => none

/-- The body of the outer loop of World::loadRooms for one room element:
extract name, description and id (crash when a child is missing), build the
room via RoomFactory, load the inventory into the new room, record the raw
connection ids in the connection map, load the nested entities, then attach
the just-created suffix of the population registry to the room. -/
def World.processRoomRecord (w : WorldState) (rec : RoomRecord) :
    Option WorldState :=
  match rec.name, rec.description, rec.id with
  | some roomName, some roomDescription, some idt =>
    let roomID := readIntText idt
    let w1 := World.RoomFactory w roomName roomID roomDescription
    match rec.inventory with
    | none => none
    | some invRecs =>
      match World.loadRoomInventoryIntoLast w1 invRecs with
      | none => none
      | some w2 =>
        match rec.connections with
        | none => none
        | some connRecs =>
          let newMap := mapInsert w2.roomConnectionMap roomID (World.trackConnections connRecs)
          let w3 := { w2 with roomConnectionMap := newMap }
          match World.loadEntities w3 rec.entityRecords with
          | none => none
          | some (w4, entCount) =>
            let idxs := idxRange (w4.population.length - entCount) entCount
            some { w4 with worldRooms := updateLast w4.worldRooms (fun r => r.addEntities idxs) }
  | _, _, _ => none

/-- World::loadRooms: the main traversal over the room elements. -/
def World.loadRooms (w : WorldState) : List RoomRecord → Option WorldState
  | [] => some w
  | rec :: rest =>
    match World.processRoomRecord w rec with
    | none => none
    | some w1 => World.loadRooms w1 rest

/-- The inner loop of World::connectRooms for one map entry with resolved
parent index pi: each neighbour id is looked up against the current registry
and, when found, pushed onto the parent neighbours via Room::addNeighbour. -/
def connectNeighbours (rooms : List RoomState) (pi : Nat) :
    List Int → List RoomState
  | [] => rooms
  | nid :: rest =>
    let rooms2 :=
      match lookupRoomIdx rooms nid with
      | none => rooms
      | some ci => updateAt rooms pi (fun r => r.addNeighbour ci)
    connectNeighbours rooms2 pi rest

/-- One entry of the connection map: resolve the parent id by linear scan;
when absent the entry is skipped entirely. -/
def connectEntry (rooms : List RoomState) (pid : Int) (ns : List Int) :
    List RoomState :=
  match lookupRoomIdx rooms pid with
  | none => rooms
  | some pi => connectNeighbours rooms pi ns

/-- The fold of World::connectRooms over the map entries in key order. -/
def connectEntries (rooms : List RoomState) :
    List (Int × List Int) → List RoomState
  | [] => rooms
  | (pid, ns) :: rest => connectEntries (connectEntry rooms pid ns) rest

/-- World::connectRooms: resolve the connection map into neighbour edges. -/
def World.connectRooms (w : WorldState) : WorldState :=
  { w with worldRooms := connectEntries w.worldRooms w.roomConnectionMap }

/-- The edges one map entry contributes to the room at index j, computed
against a fixed registry snapshot (ids never change during connectRooms, so
every lookup agrees with the snapshot). -/
def entryEdges (rooms : List RoomState) (pid : Int) (ns : List Int)
    (j : Nat) : List Nat :=
  if lookupRoomIdx rooms pid = some j then ns.filterMap (lookupRoomIdx rooms)
  else []

/-- All edges the connect phase appends to the room at index j. -/
def edgesFor (rooms : List RoomState) :
    List (Int × List Int) → Nat → List Nat
  | [], _ => []
  | (pid, ns) :: rest, j => entryEdges rooms pid ns j ++ edgesFor rooms rest j

/-- The id a room record yields: none when the id element is missing, else
the QueryIntText result over the pre-initialised 0. -/
def recExtractId (rec : RoomRecord) : Option Int :=
  rec.id.map readIntText

/-- The raw neighbour id list a room record yields for the connection map. -/
def recExtractConns (rec : RoomRecord) : Option (List Int) :=
  rec.connections.map World.trackConnections

/-- The connection list of the first record in the list whose extracted id is
the given one (what the no-overwrite std::map retains). -/
def firstConns : List RoomRecord → Int → Option (List Int)
  | [], _ => none
  | rec :: rest, i =>
    if recExtractId rec = some i then recExtractConns rec
    else firstConns rest i

/-- Option-valued map over a list, failing as soon as one element fails. -/
def mapO (f : α → Option β) : List α → Option (List β)
  | [] => some []
  | a :: rest =>
    match f a, mapO f rest with
    | some b, some bs => some (b :: bs)
    | _, _ => none

/-- The Entity a single entity record builds on a defined execution. -/
def extractEntity (e : EntRecord) : Option EntityState :=
  match e.name, e.inventory with
  | some n, some invRecs =>
    match World.makeInventory invRecs with
    | some inv => some { name := n, inventory := inv }
    | none => none
  | _, _ => none

/-- Everything a room record contributes on a defined execution. -/
structure RecParts where
  rname : String
  rdesc : String
  rid : Int
  rinv : List (Option Item)
  rconns : List Int
  rents : List EntityState
  deriving DecidableEq, Repr

/-- Pure extraction of one room record; none exactly when processing the
record would dereference a missing child element. -/
def extractRecord (rec : RoomRecord) : Option RecParts :=
  match rec.name, rec.description, rec.id, rec.inventory, rec.connections with
  | some n, some d, some idt, some invRecs, some conns =>
    match World.makeInventory invRecs, mapO extractEntity rec.entityRecords with
    | some inv, some ents =>
      some { rname := n, rdesc := d, rid := readIntText idt, rinv := inv,
             rconns := World.trackConnections conns, rents := ents }
    | _, _ => none
  | _, _, _, _, _ => none

/-- The room one record builds when processed against world w: fields from
the record, lock starts locked, population holds the indices of the entities
appended by this record, neighbours still empty before the connect phase. -/
def builtRoom (w : WorldState) (p : RecParts) : RoomState :=
  { roomName := p.rname, roomID := p.rid, description := p.rdesc,
    lock := LockStatus.locked,
    roomPopulation := idxRange w.population.length p.rents.length,
    neighbours := [], inventory := p.rinv }

/-- What processing one room record does to the world on a defined
execution: append the built room (holding its inventory and the indices of
the freshly appended entities), append the entities to the population, and
insert the raw connection list under the room id (no overwrite). -/
def buildFromParts (w : WorldState) (p : RecParts) : WorldState :=
  { title := w.title,
    worldRooms := w.worldRooms ++ [builtRoom w p],
    population := w.population ++ p.rents,
    roomConnectionMap := mapInsert w.roomConnectionMap p.rid p.rconns }

/-- An object record missing one of the required children name, description
or id. -/
def objRecordBad (o : ObjRecord) : Bool :=
  o.name.isNone || o.description.isNone || o.id.isNone

/-- An entity record missing its name or inventory block, or holding a bad
object record. -/
def entRecordBad (e : EntRecord) : Bool :=
  e.name.isNone ||
    (match e.inventory with
     | none => true
     | some l => l.any objRecordBad)

/-- A room record missing a required field, or with a bad nested object or
entity record. -/
def roomRecordBad (rec : RoomRecord) : Bool :=
  rec.name.isNone || rec.description.isNone || rec.id.isNone ||
    (match rec.inventory with
     | none => false
     | some l => l.any objRecordBad) ||
    rec.entityRecords.any entRecordBad

/-! Concrete story fragments and worlds used to evaluate the model. -/

/-- Room record with id 1 and one neighbour id 2. -/
def cRecA : RoomRecord :=
  { name := some "Gate", description := some "a", id := some (some 1),
    inventory := some [], connections := some [some 2], entityRecords := [] }

/-- A second record with the duplicate id 1 and neighbour id 3. -/
def cRecB : RoomRecord :=
  { name := some "GateTwo", description := some "b", id := some (some 1),
    inventory := some [], connections := some [some 3], entityRecords := [] }

/-- The world the loader builds from cRecA and cRecB. -/
def cWAB : WorldState :=
  { title := "", worldRooms := [Room.construct "Gate" 1 "a", Room.construct "GateTwo" 1 "b"],
    population := [], roomConnectionMap := [(1, [2])] }

/-- Room record whose id element is present but holds non-integer text. -/
def cRecNI : RoomRecord :=
  { name := some "Hall", description := some "h", id := some none,
    inventory := some [], connections := some [some 5], entityRecords := [] }

/-- The world the loader builds from cRecNI: the room exists with id 0. -/
def cWNI : WorldState :=
  { title := "", worldRooms := [Room.construct "Hall" 0 "h"],
    population := [], roomConnectionMap := [(0, [5])] }

/-- Room record whose name element is missing. -/
def cRecBadName : RoomRecord :=
  { name := none, description := some "x", id := some (some 9),
    inventory := some [], connections := some [], entityRecords := [] }

/-- Room record with one nested entity record. -/
def cRecEnt : RoomRecord :=
  { name := some "Deck", description := some "d", id := some (some 4),
    inventory := some [], connections := some [], entityRecords := [{ name := some "pilot", inventory := some [] }] }

/-- The world built from cRecEnt: the pilot is entity 0 of the population and
room 0 holds the shared reference 0 in its roomPopulation. -/
def cWEnt : WorldState :=
  { title := "",
    worldRooms := [{ roomName := "Deck", roomID := 4, description := "d",
                     lock := LockStatus.locked, roomPopulation := [0],
                     neighbours := [], inventory := [] }],
    population := [{ name := "pilot", inventory := [] }],
    roomConnectionMap := [(4, [])] }

/-- A two-room world whose map connects room 1 to ids 2 and 99 (99 absent). -/
def wEx : WorldState :=
  { title := "", worldRooms := [Room.construct "Entrance" 1 "e", Room.construct "Vault" 2 "v"],
    population := [], roomConnectionMap := [(1, [2, 99])] }

/-- A world with two rooms sharing id 7 and a self connection entry on 7. -/
def wDup : WorldState :=
  { title := "", worldRooms := [Room.construct "A" 7 "a", Room.construct "B" 7 "b"],
    population := [], roomConnectionMap := [(7, [7])] }

/-- An unlocked room, to exercise the lock state machine. -/
def cRoomU : RoomState :=
  (Room.construct "Bay" 3 "bay").setLock LockStatus.unlocked

/-- The unlocked room after one core operation. -/
def cRoomU2 : RoomState :=
  (cRoomU.addItem none).1

/-! Basic lemmas about the small helper functions. -/

theorem orElseO_none (a : Option α) : orElseO a none = a := by
  cases a <;> rfl

theorem orElseO_assoc (a b c : Option α) :
    orElseO (orElseO a b) c = orElseO a (orElseO b c) := by
  cases a <;> rfl

theorem updateAt_length (l : List α) (n : Nat) (f : α → α) :
    (updateAt l n f).length = l.length := by
  induction l generalizing n with
  | nil => rfl
  | cons a rest ih =>
    cases n with
    | zero => rfl
    | succ m => simpa [updateAt] using ih m

theorem updateAt_getElem_self {l : List α} {n : Nat} {a : α} (f : α → α)
    (h : l[n]? = some a) : (updateAt l n f)[n]? = some (f a) := by
  induction l generalizing n with
  | nil => simp at h
  | cons x rest ih =>
    cases n with
    | zero =>
      simp only [List.getElem?_cons_zero, Option.some.injEq] at h
      simp [updateAt, h]
    | succ m =>
      simp only [List.getElem?_cons_succ] at h
      simpa [updateAt] using ih h

theorem updateAt_getElem_ne {l : List α} {m n : Nat} (f : α → α)
    (h : m ≠ n) : (updateAt l n f)[m]? = l[m]? := by
  induction l generalizing m n with
  | nil => rfl
  | cons x rest ih =>
    cases n with
    | zero =>
      cases m with
      | zero => exact absurd rfl h
      | succ m2 => simp [updateAt]
    | succ n2 =>
      cases m with
      | zero => simp [updateAt]
      | succ m2 =>
        have h2 : m2 ≠ n2 := by omega
        simpa [updateAt] using ih h2

theorem updateAt_map {l : List α} {n : Nat} {f : α → α} (g : α → β)
    (h : ∀ x, g (f x) = g x) : (updateAt l n f).map g = l.map g := by
  induction l generalizing n with
  | nil => rfl
  | cons x rest ih =>
    cases n with
    | zero => simp [updateAt, h]
    | succ m => simp [updateAt, ih]

theorem updateLast_append (l : List α) (a : α) (f : α → α) :
    updateLast (l ++ [a]) f = l ++ [f a] := by
  induction l with
  | nil => rfl
  | cons x rest ih =>
    cases rest with
    | nil => rfl
    | cons y t => simpa [updateLast] using ih

theorem findIdxFrom_getElem {l : List Int} {i : Int} {m : Nat}
    (h : findIdxFrom l i = some m) : l[m]? = some i := by
  induction l generalizing m with
  | nil => simp [findIdxFrom] at h
  | cons x rest ih =>
    by_cases hx : x = i
    · simp only [findIdxFrom, if_pos hx, Option.some.injEq] at h
      subst h
      simp [hx]
    · simp only [findIdxFrom, if_neg hx, Option.map_eq_some'] at h
      obtain ⟨m0, hm0, hm⟩ := h
      subst hm
      simpa using ih hm0

theorem findIdxFrom_least {l : List Int} {i : Int} {m : Nat}
    (h : findIdxFrom l i = some m) : ∀ m' < m, l[m']? ≠ some i := by
  induction l generalizing m with
  | nil => simp [findIdxFrom] at h
  | cons x rest ih =>
    by_cases hx : x = i
    · simp only [findIdxFrom, if_pos hx, Option.some.injEq] at h
      subst h
      omega
    · simp only [findIdxFrom, if_neg hx, Option.map_eq_some'] at h
      obtain ⟨m0, hm0, hm⟩ := h
      subst hm
      intro m' hm' hcontra
      cases m' with
      | zero =>
        simp only [List.getElem?_cons_zero, Option.some.injEq] at hcontra
        exact hx hcontra
      | succ m2 =>
        simp only [List.getElem?_cons_succ] at hcontra
        exact ih hm0 m2 (by omega) hcontra

theorem findIdxFrom_of_getElem {l : List Int} {i : Int} {n : Nat}
    (h : l[n]? = some i) : ∃ m, findIdxFrom l i = some m ∧ m ≤ n := by
  induction l generalizing n with
  | nil => simp at h
  | cons x rest ih =>
    by_cases hx : x = i
    · exact ⟨0, by simp [findIdxFrom, hx], Nat.zero_le n⟩
    · cases n with
      | zero =>
        simp only [List.getElem?_cons_zero, Option.some.injEq] at h
        exact absurd h hx
      | succ n2 =>
        simp only [List.getElem?_cons_succ] at h
        obtain ⟨m0, hm0, hle⟩ := ih h
        exact ⟨m0 + 1, by simp [findIdxFrom, hx, hm0], by omega⟩

theorem lookupRoomIdx_spec {rooms : List RoomState} {i : Int} {m : Nat}
    (h : lookupRoomIdx rooms i = some m) :
    ∃ rm, rooms[m]? = some rm ∧ rm.roomID = i ∧
      ∀ m' rm', m' < m → rooms[m']? = some rm' → rm'.roomID ≠ i := by
  have h1 := findIdxFrom_getElem h
  have h2 := findIdxFrom_least h
  rw [List.getElem?_map] at h1
  obtain ⟨rm, hrm, hid⟩ := Option.map_eq_some'.mp h1
  refine ⟨rm, hrm, hid, ?_⟩
  intro m' rm' hlt hget hcontra
  have := h2 m' hlt
  rw [List.getElem?_map, hget] at this
  exact this (by simp [hcontra])

theorem lookupRoomIdx_of_getElem {rooms : List RoomState} {n : Nat}
    {r : RoomState} (h : rooms[n]? = some r) :
    ∃ m, lookupRoomIdx rooms r.roomID = some m ∧ m ≤ n := by
  have hmap : (rooms.map (fun r => r.roomID))[n]? = some r.roomID := by
    rw [List.getElem?_map, h]
    rfl
  exact findIdxFrom_of_getElem hmap

theorem lookupRoomIdx_congr {a b : List RoomState}
    (h : a.map (fun r => r.roomID) = b.map (fun r => r.roomID)) (i : Int) :
    lookupRoomIdx a i = lookupRoomIdx b i := by
  unfold lookupRoomIdx
  rw [h]

/-! Lemmas about the sorted no-overwrite map model of std::map. -/

theorem mapSorted_tail {p : Int × List Int} {rest : List (Int × List Int)}
    (h : mapSorted (p :: rest) = true) : mapSorted rest = true := by
  cases rest with
  | nil => rfl
  | cons q t =>
    obtain ⟨k0, v0⟩ := p
    obtain ⟨k1, v1⟩ := q
    simp only [mapSorted, Bool.and_eq_true, decide_eq_true_eq] at h
    exact h.2

theorem mapSorted_head_lt {k0 : Int} {v0 : List Int}
    {rest : List (Int × List Int)} (h : mapSorted ((k0, v0) :: rest) = true) :
    ∀ p ∈ rest, k0 < p.1 := by
  induction rest generalizing k0 v0 with
  | nil => intro p hp; simp at hp
  | cons q t ih =>
    obtain ⟨k1, v1⟩ := q
    simp only [mapSorted, Bool.and_eq_true, decide_eq_true_eq] at h
    intro p hp
    rcases List.mem_cons.mp hp with h1 | h2
    · subst h1; exact h.1
    · exact lt_trans h.1 (ih h.2 p h2)

theorem mapSorted_cons_of {k0 : Int} {v0 : List Int}
    {t : List (Int × List Int)} (ht : mapSorted t = true)
    (hlt : ∀ p ∈ t, k0 < p.1) : mapSorted ((k0, v0) :: t) = true := by
  cases t with
  | nil => rfl
  | cons q t2 =>
    obtain ⟨k1, v1⟩ := q
    simp only [mapSorted, Bool.and_eq_true, decide_eq_true_eq]
    exact ⟨hlt (k1, v1) (List.mem_cons_self _ _), ht⟩

theorem mapInsert_keys_lb {m : List (Int × List Int)} {k : Int}
    {v : List Int} {lb : Int} (hk : lb < k) (hm : ∀ p ∈ m, lb < p.1) :
    ∀ p ∈ mapInsert m k v, lb < p.1 := by
  induction m with
  | nil =>
    intro p hp
    simp only [mapInsert, List.mem_singleton] at hp
    subst hp
    exact hk
  | cons q rest ih =>
    obtain ⟨k0, v0⟩ := q
    intro p hp
    by_cases h1 : k < k0
    · simp only [mapInsert, if_pos h1] at hp
      rcases List.mem_cons.mp hp with h2 | h2
      · subst h2; exact hk
      · exact hm p h2
    · by_cases h2 : k = k0
      · simp only [mapInsert, if_neg h1, if_pos h2] at hp
        exact hm p hp
      · simp only [mapInsert, if_neg h1, if_neg h2] at hp
        rcases List.mem_cons.mp hp with h3 | h3
        · subst h3; exact hm (k0, v0) (List.mem_cons_self _ _)
        · exact ih (fun q hq => hm q (List.mem_cons_of_mem _ hq)) p h3

theorem mapInsert_sorted {m : List (Int × List Int)} (k : Int)
    (v : List Int) (h : mapSorted m = true) :
    mapSorted (mapInsert m k v) = true := by
  induction m with
  | nil => rfl
  | cons q rest ih =>
    obtain ⟨k0, v0⟩ := q
    by_cases h1 : k < k0
    · simp only [mapInsert, if_pos h1]
      refine mapSorted_cons_of h ?_
      intro p hp
      rcases List.mem_cons.mp hp with h2 | h2
      · subst h2; exact h1
      · exact lt_trans h1 (mapSorted_head_lt h p h2)
    · by_cases h2 : k = k0
      · simp only [mapInsert, if_neg h1, if_pos h2]
        exact h
      · simp only [mapInsert, if_neg h1, if_neg h2]
        have hk0 : k0 < k := by omega
        exact mapSorted_cons_of (ih (mapSorted_tail h))
          (mapInsert_keys_lb hk0 (mapSorted_head_lt h))

theorem mapLookup_none_of {m : List (Int × List Int)} {i : Int}
    (h : ∀ p ∈ m, i ≠ p.1) : mapLookup m i = none := by
  induction m with
  | nil => rfl
  | cons q rest ih =>
    obtain ⟨k0, v0⟩ := q
    have hne : i ≠ k0 := h (k0, v0) (List.mem_cons_self _ _)
    simp only [mapLookup, if_neg hne]
    exact ih (fun p hp => h p (List.mem_cons_of_mem _ hp))

theorem mapInsert_lookup {m : List (Int × List Int)} (k : Int)
    (v : List Int) (i : Int) (hs : mapSorted m = true) :
    mapLookup (mapInsert m k v) i =
      orElseO (mapLookup m i) (if i = k then some v else none) := by
  induction m with
  | nil =>
    by_cases hik : i = k <;> simp [mapInsert, mapLookup, orElseO, hik]
  | cons q rest ih =>
    obtain ⟨k0, v0⟩ := q
    by_cases h1 : k < k0
    · simp only [mapInsert, if_pos h1]
      by_cases hik : i = k
      · subst hik
        have hnone : mapLookup ((k0, v0) :: rest) i = none := by
          refine mapLookup_none_of ?_
          intro p hp
          rcases List.mem_cons.mp hp with h2 | h2
          · subst h2; omega
          · have := mapSorted_head_lt hs p h2
            omega
        rw [hnone]
        simp [mapLookup, orElseO]
      · simp [mapLookup, hik, orElseO_none]
    · by_cases h2 : k = k0
      · subst h2
        simp only [mapInsert, if_neg h1, if_pos rfl]
        by_cases hik : i = k
        · subst hik
          simp [mapLookup, orElseO]
        · simp [mapLookup, hik, orElseO_none]
      · have hk0 : k0 < k := by omega
        simp only [mapInsert, if_neg h1, if_neg h2]
        by_cases hik0 : i = k0
        · subst hik0
          have hik : i ≠ k := by omega
          simp [mapLookup, hik, orElseO]
        · simp only [mapLookup, if_neg hik0]
          exact ih (mapSorted_tail hs)

/-! Characterization of the connect phase. -/

theorem connectNeighbours_map_roomID (ns : List Int)
    (rooms : List RoomState) (pi : Nat) :
    (connectNeighbours rooms pi ns).map (fun r => r.roomID) =
      rooms.map (fun r => r.roomID) := by
  induction ns generalizing rooms with
  | nil => rfl
  | cons nid rest ih =>
    simp only [connectNeighbours]
    cases hl : lookupRoomIdx rooms nid with
    | none => simpa using ih rooms
    | some ci =>
      rw [ih (updateAt rooms pi (fun r => r.addNeighbour ci))]
      exact updateAt_map _ (fun x => rfl)

theorem connectNeighbours_char (ns : List Int) (rooms : List RoomState)
    (pi j : Nat) (r : RoomState) (h : rooms[j]? = some r) :
    (connectNeighbours rooms pi ns)[j]? =
      some { r with neighbours := r.neighbours ++
        (if pi = j then ns.filterMap (lookupRoomIdx rooms) else []) } := by
  induction ns generalizing rooms r with
  | nil =>
    obtain ⟨nm, rid, dsc, lk, pop, nb, inv⟩ := r
    simp only [connectNeighbours, List.filterMap_nil]
    split <;> simpa using h
  | cons nid rest ih =>
    simp only [connectNeighbours]
    cases hl : lookupRoomIdx rooms nid with
    | none =>
      rw [ih rooms r h]
      simp [List.filterMap_cons, hl]
    | some ci =>
      have hmap : (updateAt rooms pi (fun r => r.addNeighbour ci)).map
          (fun r => r.roomID) = rooms.map (fun r => r.roomID) :=
        updateAt_map _ (fun x => rfl)
      have hfun : lookupRoomIdx (updateAt rooms pi (fun r => r.addNeighbour ci)) =
          lookupRoomIdx rooms :=
        funext (lookupRoomIdx_congr hmap)
      by_cases hpj : pi = j
      · subst hpj
        have h2 : (updateAt rooms pi (fun r => r.addNeighbour ci))[pi]? =
            some (r.addNeighbour ci) := updateAt_getElem_self _ h
        rw [ih _ _ h2, hfun]
        obtain ⟨nm, rid, dsc, lk, pop, nb, inv⟩ := r
        simp [RoomState.addNeighbour, List.filterMap_cons, hl]
      · have h2 : (updateAt rooms pi (fun r => r.addNeighbour ci))[j]? =
            some r := by
          rw [updateAt_getElem_ne _ (fun hc => hpj hc.symm)]
          exact h
        rw [ih _ _ h2, hfun]
        simp [if_neg hpj]

theorem connectEntry_map_roomID (rooms : List RoomState) (pid : Int)
    (ns : List Int) :
    (connectEntry rooms pid ns).map (fun r => r.roomID) =
      rooms.map (fun r => r.roomID) := by
  unfold connectEntry
  cases lookupRoomIdx rooms pid with
  | none => rfl
  | some pi => exact connectNeighbours_map_roomID ns rooms pi

theorem connectEntry_char (rooms : List RoomState) (pid : Int)
    (ns : List Int) (j : Nat) (r : RoomState) (h : rooms[j]? = some r) :
    (connectEntry rooms pid ns)[j]? =
      some { r with neighbours := r.neighbours ++ entryEdges rooms pid ns j } := by
  unfold connectEntry entryEdges
  cases hl : lookupRoomIdx rooms pid with
  | none =>
    obtain ⟨nm, rid, dsc, lk, pop, nb, inv⟩ := r
    simpa using h
  | some pi =>
    rw [connectNeighbours_char ns rooms pi j r h]
    simp [Option.some.injEq]

theorem entryEdges_congr {a b : List RoomState}
    (h : a.map (fun r => r.roomID) = b.map (fun r => r.roomID))
    (pid : Int) (ns : List Int) (j : Nat) :
    entryEdges a pid ns j = entryEdges b pid ns j := by
  unfold entryEdges
  rw [funext (lookupRoomIdx_congr h)]

theorem edgesFor_congr {a b : List RoomState}
    (h : a.map (fun r => r.roomID) = b.map (fun r => r.roomID))
    (entries : List (Int × List Int)) (j : Nat) :
    edgesFor a entries j = edgesFor b entries j := by
  induction entries with
  | nil => rfl
  | cons p rest ih =>
    obtain ⟨pid, ns⟩ := p
    simp only [edgesFor]
    rw [entryEdges_congr h, ih]

theorem connectEntries_char (entries : List (Int × List Int))
    (rooms : List RoomState) (j : Nat) (r : RoomState)
    (h : rooms[j]? = some r) :
    (connectEntries rooms entries)[j]? =
      some { r with neighbours := r.neighbours ++ edgesFor rooms entries j } := by
  induction entries generalizing rooms r with
  | nil =>
    obtain ⟨nm, rid, dsc, lk, pop, nb, inv⟩ := r
    simpa [connectEntries, edgesFor] using h
  | cons p rest ih =>
    obtain ⟨pid, ns⟩ := p
    simp only [connectEntries]
    have h1 := connectEntry_char rooms pid ns j r h
    have hmap := connectEntry_map_roomID rooms pid ns
    rw [ih (connectEntry rooms pid ns) _ h1, edgesFor_congr hmap]
    obtain ⟨nm, rid, dsc, lk, pop, nb, inv⟩ := r
    simp [edgesFor, List.append_assoc]

theorem edgesFor_justified {rooms : List RoomState}
    {entries : List (Int × List Int)} {j : Nat} {e : Nat}
    (h : e ∈ edgesFor rooms entries j) :
    ∃ pid ns nid, (pid, ns) ∈ entries ∧ nid ∈ ns ∧
      lookupRoomIdx rooms pid = some j ∧ lookupRoomIdx rooms nid = some e := by
  induction entries with
  | nil => simp [edgesFor] at h
  | cons p rest ih =>
    obtain ⟨pid, ns⟩ := p
    simp only [edgesFor, List.mem_append] at h
    rcases h with h1 | h2
    · unfold entryEdges at h1
      split at h1
      · next hcond =>
        obtain ⟨nid, hnid, hlk⟩ := List.mem_filterMap.mp h1
        exact ⟨pid, ns, nid, List.mem_cons_self _ _, hnid, hcond, hlk⟩
      · simp at h1
    · obtain ⟨pid2, ns2, nid2, hm, hn, hp, hl⟩ := ih h2
      exact ⟨pid2, ns2, nid2, List.mem_cons_of_mem _ hm, hn, hp, hl⟩

theorem edgesFor_mem {rooms : List RoomState}
    {entries : List (Int × List Int)} {j : Nat} {pid : Int} {ns : List Int}
    {nid : Int} {ci : Nat} (hmem : (pid, ns) ∈ entries)
    (hp : lookupRoomIdx rooms pid = some j) (hn : nid ∈ ns)
    (hc : lookupRoomIdx rooms nid = some ci) :
    ci ∈ edgesFor rooms entries j := by
  induction entries with
  | nil => simp at hmem
  | cons p rest ih =>
    obtain ⟨pid0, ns0⟩ := p
    rcases List.mem_cons.mp hmem with h1 | h2
    · injection h1 with he1 he2
      subst he1
      subst he2
      simp only [edgesFor, List.mem_append]
      left
      unfold entryEdges
      rw [if_pos hp]
      exact List.mem_filterMap.mpr ⟨nid, hn, hc⟩
    · simp only [edgesFor, List.mem_append]
      right
      exact ih h2

theorem edgesFor_nil_of {rooms : List RoomState}
    {entries : List (Int × List Int)} {j : Nat}
    (h : ∀ pid, lookupRoomIdx rooms pid ≠ some j) :
    edgesFor rooms entries j = [] := by
  induction entries with
  | nil => rfl
  | cons p rest ih =>
    obtain ⟨pid, ns⟩ := p
    simp only [edgesFor]
    rw [ih]
    unfold entryEdges
    rw [if_neg (h pid)]
    rfl

/-! Generic helpers for option-valued traversal and indexed access. -/

theorem mapO_length {f : α → Option β} :
    ∀ {l : List α} {bs : List β}, mapO f l = some bs → bs.length = l.length := by
  intro l
  induction l with
  | nil =>
    intro bs h
    simp only [mapO, Option.some.injEq] at h
    subst h
    rfl
  | cons a rest ih =>
    intro bs h
    simp only [mapO] at h
    split at h
    · next b bs0 heq1 heq2 =>
      simp only [Option.some.injEq] at h
      subst h
      simp [ih heq2]
    · simp at h

theorem mapO_getElem {f : α → Option β} :
    ∀ {l : List α} {bs : List β}, mapO f l = some bs →
      ∀ {k : Nat} {a : α}, l[k]? = some a →
        ∃ b, bs[k]? = some b ∧ f a = some b := by
  intro l
  induction l with
  | nil => intro bs h k a hk; simp at hk
  | cons x rest ih =>
    intro bs h k a hk
    simp only [mapO] at h
    split at h
    · next b bs0 heq1 heq2 =>
      simp only [Option.some.injEq] at h
      subst h
      cases k with
      | zero =>
        simp only [List.getElem?_cons_zero, Option.some.injEq] at hk
        subst hk
        exact ⟨b, by simp, heq1⟩
      | succ k2 =>
        simp only [List.getElem?_cons_succ] at hk ⊢
        exact ih heq2 hk
    · simp at h

theorem mapO_none_of_mem {f : α → Option β} {l : List α} {a : α}
    (ha : a ∈ l) (hf : f a = none) : mapO f l = none := by
  induction l with
  | nil => simp at ha
  | cons x rest ih =>
    simp only [mapO]
    split
    · next b bs0 heq1 heq2 =>
      rcases List.mem_cons.mp ha with h1 | h2
      · subst h1
        rw [hf] at heq1
        cases heq1
      · rw [ih h2] at heq2
        cases heq2
    · rfl

theorem getElem?_append_stable {a b : List α} :
    ∀ {n : Nat} {x : α}, a[n]? = some x → (a ++ b)[n]? = some x := by
  induction a with
  | nil => intro n x h; simp at h
  | cons y rest ih =>
    intro n x h
    cases n with
    | zero => simpa using h
    | succ m =>
      simp only [List.getElem?_cons_succ] at h
      simpa [List.cons_append, List.getElem?_cons_succ] using ih h

theorem getElem?_append_len {a b : List α} (j : Nat) :
    (a ++ b)[a.length + j]? = b[j]? := by
  induction a with
  | nil => simp
  | cons y rest ih =>
    simp only [List.length_cons, List.cons_append]
    rw [show rest.length + 1 + j = (rest.length + j) + 1 by omega]
    simpa [List.getElem?_cons_succ] using ih

theorem idxRange_mem {s n m : Nat} :
    m ∈ idxRange s n ↔ ∃ j, j < n ∧ m = s + j := by
  simp only [idxRange, List.mem_map, List.mem_range]
  constructor
  · rintro ⟨j, hj, rfl⟩
    exact ⟨j, hj, rfl⟩
  · rintro ⟨j, hj, rfl⟩
    exact ⟨j, hj, rfl⟩

/-! Characterizations of the loader passes. -/

theorem makeInventory_bad {objs : List ObjRecord} {o : ObjRecord}
    (ho : o ∈ objs) (hb : objRecordBad o = true) :
    World.makeInventory objs = none := by
  induction objs with
  | nil => simp at ho
  | cons x rest ih =>
    simp only [World.makeInventory]
    split
    · next n d idt heq1 heq2 heq3 =>
      rcases List.mem_cons.mp ho with h1 | h2
      · subst h1
        simp only [objRecordBad, Bool.or_eq_true, Option.isNone_iff_eq_none] at hb
        rcases hb with (h | h) | h
        · rw [h] at heq1; cases heq1
        · rw [h] at heq2; cases heq2
        · rw [h] at heq3; cases heq3
      · rw [ih h2]
    · rfl

theorem extractEntity_bad {e : EntRecord} (hb : entRecordBad e = true) :
    extractEntity e = none := by
  simp only [entRecordBad, Bool.or_eq_true, Option.isNone_iff_eq_none] at hb
  simp only [extractEntity]
  split
  · next n invRecs heq1 heq2 =>
    rcases hb with h | h
    · rw [h] at heq1
      cases heq1
    · rw [heq2] at h
      simp only [List.any_eq_true] at h
      obtain ⟨o, ho, hob⟩ := h
      rw [makeInventory_bad ho hob]
  · rfl

theorem loadEntities_char (ents : List EntRecord) :
    ∀ w : WorldState, World.loadEntities w ents =
      (mapO extractEntity ents).map
        (fun es => ({ w with population := w.population ++ es }, ents.length)) := by
  induction ents with
  | nil =>
    intro w
    obtain ⟨t, rs, pop, m⟩ := w
    simp [World.loadEntities, mapO]
  | cons e rest ih =>
    intro w
    cases hn : e.name with
    | none => simp [World.loadEntities, mapO, extractEntity, hn]
    | some n =>
      cases hi : e.inventory with
      | none => simp [World.loadEntities, mapO, extractEntity, hn, hi]
      | some invRecs =>
        cases hm : World.makeInventory invRecs with
        | none => simp [World.loadEntities, mapO, extractEntity, hn, hi, hm]
        | some inv =>
          simp only [World.loadEntities, mapO, extractEntity, hn, hi, hm]
          rw [ih]
          cases hr : mapO extractEntity rest with
          | none => simp
          | some es =>
            obtain ⟨t, rs, pop, m⟩ := w
            simp [EntityState.addItems, Entity.construct, mapO_length hr,
              List.append_assoc]

theorem loadRoomInventoryIntoLast_char (objs : List ObjRecord) :
    ∀ (w : WorldState) (l : List RoomState) (r : RoomState),
      w.worldRooms = l ++ [r] →
      World.loadRoomInventoryIntoLast w objs =
        (World.makeInventory objs).map
          (fun inv => { w with
            worldRooms := l ++ [{ r with inventory := r.inventory ++ inv }] }) := by
  induction objs with
  | nil =>
    intro w l r hw
    obtain ⟨t, rs, pop, m⟩ := w
    obtain ⟨nm, rid, dsc, lk, popr, nb, inv⟩ := r
    simp only at hw
    subst hw
    simp [World.loadRoomInventoryIntoLast, World.makeInventory]
  | cons o rest ih =>
    intro w l r hw
    cases hn : o.name with
    | none => simp [World.loadRoomInventoryIntoLast, World.makeInventory, hn]
    | some n =>
      cases hd : o.description with
      | none => simp [World.loadRoomInventoryIntoLast, World.makeInventory, hn, hd]
      | some d =>
        cases hi : o.id with
        | none => simp [World.loadRoomInventoryIntoLast, World.makeInventory, hn, hd, hi]
        | some idt =>
          simp only [World.loadRoomInventoryIntoLast, World.makeInventory, hn, hd, hi]
          have hup : updateLast w.worldRooms
              (fun r0 => (r0.addItem (some (Item.obj n (readIntText idt) d))).1) =
              l ++ [(r.addItem (some (Item.obj n (readIntText idt) d))).1] := by
            rw [hw]
            exact updateLast_append l r _
          rw [hup, ih _ l ((r.addItem (some (Item.obj n (readIntText idt) d))).1) rfl]
          cases hm : World.makeInventory rest with
          | none => rfl
          | some inv =>
            obtain ⟨t, rs, pop, m⟩ := w
            obtain ⟨nm, rid, dsc, lk, popr, nb, invr⟩ := r
            simp [RoomState.addItem, List.append_assoc]

theorem extractRecord_spec {rec : RoomRecord} {p : RecParts}
    (h : extractRecord rec = some p) :
    rec.name = some p.rname ∧ rec.description = some p.rdesc ∧
      (∃ idt, rec.id = some idt ∧ p.rid = readIntText idt) ∧
      (∃ invRecs, rec.inventory = some invRecs ∧
        World.makeInventory invRecs = some p.rinv) ∧
      (∃ conns, rec.connections = some conns ∧
        p.rconns = World.trackConnections conns) ∧
      mapO extractEntity rec.entityRecords = some p.rents := by
  simp only [extractRecord] at h
  split at h
  · next n d idt invRecs conns heq1 heq2 heq3 heq4 heq5 =>
    split at h
    · next inv ents heq6 heq7 =>
      simp only [Option.some.injEq] at h
      subst h
      exact ⟨heq1, heq2, ⟨idt, heq3, rfl⟩, ⟨invRecs, heq4, heq6⟩,
        ⟨conns, heq5, rfl⟩, heq7⟩
    · cases h
  · cases h

theorem extractRecord_bad {rec : RoomRecord} (hb : roomRecordBad rec = true) :
    extractRecord rec = none := by
  simp only [roomRecordBad, Bool.or_eq_true, Option.isNone_iff_eq_none] at hb
  simp only [extractRecord]
  split
  · next n d idt invRecs conns heq1 heq2 heq3 heq4 heq5 =>
    rcases hb with (((h | h) | h) | h) | h
    · rw [h] at heq1; cases heq1
    · rw [h] at heq2; cases heq2
    · rw [h] at heq3; cases heq3
    · rw [heq4] at h
      simp only [List.any_eq_true] at h
      obtain ⟨o, ho, hob⟩ := h
      rw [makeInventory_bad ho hob]
    · simp only [List.any_eq_true] at h
      obtain ⟨e, he, heb⟩ := h
      rw [mapO_none_of_mem he (extractEntity_bad heb)]
      cases World.makeInventory invRecs <;> rfl
  · rfl

theorem processRoomRecord_char (w : WorldState) (rec : RoomRecord) :
    World.processRoomRecord w rec =
      (extractRecord rec).map (buildFromParts w) := by
  cases hn : rec.name with
  | none => simp [World.processRoomRecord, extractRecord, hn]
  | some n =>
  cases hd : rec.description with
  | none => simp [World.processRoomRecord, extractRecord, hn, hd]
  | some d =>
  cases hid : rec.id with
  | none => simp [World.processRoomRecord, extractRecord, hn, hd, hid]
  | some idt =>
  cases hinv : rec.inventory with
  | none => simp [World.processRoomRecord, extractRecord, hn, hd, hid, hinv]
  | some invRecs =>
  simp only [World.processRoomRecord, extractRecord, hn, hd, hid, hinv]
  rw [loadRoomInventoryIntoLast_char invRecs _ w.worldRooms
    (Room.construct n (readIntText idt) d) (by simp [World.RoomFactory])]
  cases hconn : rec.connections with
  | none =>
    cases hminv : World.makeInventory invRecs <;> rfl
  | some conns =>
  dsimp only
  cases hminv : World.makeInventory invRecs with
  | none => rfl
  | some inv =>
  simp only [Option.map_some']
  rw [loadEntities_char]
  cases hents : mapO extractEntity rec.entityRecords with
  | none => rfl
  | some es =>
  have hlen : es.length = rec.entityRecords.length := mapO_length hents
  simp only [Option.map_some', Option.some.injEq, World.RoomFactory,
    buildFromParts, builtRoom]
  rw [updateLast_append]
  obtain ⟨t, rs, pop, m⟩ := w
  simp only [WorldState.mk.injEq, List.append_cancel_left_eq, List.cons.injEq,
    and_true, true_and]
  simp [RoomState.addEntities, Room.construct, hlen, Nat.add_sub_cancel]

theorem loadRooms_cons {w w' : WorldState} {rec : RoomRecord}
    {rest : List RoomRecord} (h : World.loadRooms w (rec :: rest) = some w') :
    ∃ w1, World.processRoomRecord w rec = some w1 ∧
      World.loadRooms w1 rest = some w' := by
  simp only [World.loadRooms] at h
  split at h
  · cases h
  · next w1 heq => exact ⟨w1, heq, h⟩

theorem loadRooms_nil {w w' : WorldState}
    (h : World.loadRooms w [] = some w') : w' = w := by
  simp only [World.loadRooms, Option.some.injEq] at h
  exact h.symm

theorem processRoomRecord_some {w w1 : WorldState} {rec : RoomRecord}
    (h : World.processRoomRecord w rec = some w1) :
    ∃ p, extractRecord rec = some p ∧ w1 = buildFromParts w p := by
  rw [processRoomRecord_char] at h
  cases he : extractRecord rec with
  | none => rw [he] at h; cases h
  | some p =>
    rw [he] at h
    simp only [Option.map_some', Option.some.injEq] at h
    exact ⟨p, rfl, h.symm⟩

theorem loadRooms_stable : ∀ {recs : List RoomRecord} {w w' : WorldState},
    World.loadRooms w recs = some w' →
    (∀ {n : Nat} {r : RoomState},
        w.worldRooms[n]? = some r → w'.worldRooms[n]? = some r) ∧
    (∀ {n : Nat} {e : EntityState},
        w.population[n]? = some e → w'.population[n]? = some e) := by
  intro recs
  induction recs with
  | nil =>
    intro w w' h
    rw [loadRooms_nil h]
    exact ⟨fun hr => hr, fun he => he⟩
  | cons rec rest ih =>
    intro w w' h
    obtain ⟨w1, hp, hl⟩ := loadRooms_cons h
    obtain ⟨p, he, hw1⟩ := processRoomRecord_some hp
    subst hw1
    have h1 := ih hl
    constructor
    · intro n r hr
      exact h1.1 (by simpa [buildFromParts] using getElem?_append_stable hr)
    · intro n e hee
      exact h1.2 (by simpa [buildFromParts] using getElem?_append_stable hee)

theorem loadRooms_ids : ∀ {recs : List RoomRecord} {w w' : WorldState},
    World.loadRooms w recs = some w' →
    ∃ nr, w'.worldRooms = w.worldRooms ++ nr ∧
      List.Forall₂ (fun rec rm => recExtractId rec = some rm.roomID) recs nr := by
  intro recs
  induction recs with
  | nil =>
    intro w w' h
    rw [loadRooms_nil h]
    exact ⟨[], by simp, List.Forall₂.nil⟩
  | cons rec rest ih =>
    intro w w' h
    obtain ⟨w1, hp, hl⟩ := loadRooms_cons h
    obtain ⟨p, he, hw1⟩ := processRoomRecord_some hp
    subst hw1
    obtain ⟨nr, hr, hfa⟩ := ih hl
    obtain ⟨hn, hd, ⟨idt, hidt, hrid⟩, _, _, _⟩ := extractRecord_spec he
    refine ⟨builtRoom w p :: nr, ?_, List.Forall₂.cons ?_ hfa⟩
    · rw [hr]
      simp [buildFromParts]
    · simp only [recExtractId, builtRoom, hidt, Option.map_some',
        Option.some.injEq]
      exact hrid.symm

theorem loadRooms_map_char : ∀ (recs : List RoomRecord) {w w' : WorldState},
    mapSorted w.roomConnectionMap = true →
    World.loadRooms w recs = some w' →
    ∀ i, mapLookup w'.roomConnectionMap i =
      orElseO (mapLookup w.roomConnectionMap i) (firstConns recs i) := by
  intro recs
  induction recs with
  | nil =>
    intro w w' hs h i
    rw [loadRooms_nil h]
    simp [firstConns, orElseO_none]
  | cons rec rest ih =>
    intro w w' hs h i
    obtain ⟨w1, hp, hl⟩ := loadRooms_cons h
    obtain ⟨p, he, hw1⟩ := processRoomRecord_some hp
    subst hw1
    have hs1 : mapSorted (buildFromParts w p).roomConnectionMap = true := by
      simpa [buildFromParts] using mapInsert_sorted p.rid p.rconns hs
    have hih := ih hs1 hl i
    rw [hih]
    simp only [buildFromParts]
    rw [mapInsert_lookup _ _ _ hs, orElseO_assoc]
    obtain ⟨_, _, ⟨idt, hidt, hrid⟩, _, ⟨conns, hconns, hrc⟩, _⟩ :=
      extractRecord_spec he
    simp only [firstConns, recExtractId, recExtractConns, hidt, hconns,
      Option.map_some']
    by_cases hip : i = p.rid
    · have hc1 : some (readIntText idt) = some i := by rw [hip, hrid]
      rw [if_pos hip, if_pos hc1]
      simp [orElseO, hrc]
    · have hc1 : ¬ some (readIntText idt) = some i := by
        intro hc
        injection hc with hc2
        rw [← hrid] at hc2
        exact hip hc2.symm
      rw [if_neg hip, if_neg hc1]
      simp [orElseO]

theorem loadRooms_fields : ∀ {recs : List RoomRecord} {w w' : WorldState},
    World.loadRooms w recs = some w' →
    ∀ rec ∈ recs, ∃ p, extractRecord rec = some p := by
  intro recs
  induction recs with
  | nil => intro w w' _ rec hrec; simp at hrec
  | cons rec0 rest ih =>
    intro w w' h rec hrec
    obtain ⟨w1, hp, hl⟩ := loadRooms_cons h
    obtain ⟨p, he, hw1⟩ := processRoomRecord_some hp
    rcases List.mem_cons.mp hrec with h1 | h2
    · subst h1
      exact ⟨p, he⟩
    · exact ih hl rec h2

theorem loadRooms_entity_placement :
    ∀ {recs : List RoomRecord} {w w' : WorldState},
      World.loadRooms w recs = some w' →
      ∀ {k : Nat} {rec : RoomRecord}, recs[k]? = some rec →
      ∀ {j : Nat} {erec : EntRecord}, rec.entityRecords[j]? = some erec →
      ∃ idx ent room, extractEntity erec = some ent ∧
        w'.population[idx]? = some ent ∧
        w'.worldRooms[w.worldRooms.length + k]? = some room ∧
        idx ∈ room.roomPopulation := by
  intro recs
  induction recs with
  | nil => intro w w' h k rec hk; simp at hk
  | cons rec0 rest ih =>
    intro w w' h k rec hk j erec hj
    obtain ⟨w1, hp, hl⟩ := loadRooms_cons h
    obtain ⟨p, he, hw1⟩ := processRoomRecord_some hp
    subst hw1
    cases k with
    | zero =>
      simp only [List.getElem?_cons_zero, Option.some.injEq] at hk
      subst hk
      obtain ⟨_, _, _, _, _, hents⟩ := extractRecord_spec he
      obtain ⟨ent, hentk, hext⟩ := mapO_getElem hents hj
      have hjlen : j < p.rents.length := by
        have := List.getElem?_eq_some_iff.mp hentk
        exact this.1
      refine ⟨w.population.length + j, ent, builtRoom w p, hext, ?_, ?_, ?_⟩
      · refine (loadRooms_stable hl).2 ?_
        show (buildFromParts w p).population[w.population.length + j]? = some ent
        simp only [buildFromParts]
        rw [getElem?_append_len]
        exact hentk
      · refine (loadRooms_stable hl).1 ?_
        show (buildFromParts w p).worldRooms[w.worldRooms.length + 0]? = _
        simp only [buildFromParts]
        rw [getElem?_append_len]
        rfl
      · exact idxRange_mem.mpr ⟨j, hjlen, rfl⟩
    | succ k2 =>
      simp only [List.getElem?_cons_succ] at hk
      have hres := ih hl hk hj
      have hlen1 : (buildFromParts w p).worldRooms.length =
          w.worldRooms.length + 1 := by
        simp [buildFromParts]
      rw [hlen1] at hres
      obtain ⟨idx, ent, room, h1, h2, h3, h4⟩ := hres
      refine ⟨idx, ent, room, h1, h2, ?_, h4⟩
      rw [show w.worldRooms.length + (k2 + 1) = w.worldRooms.length + 1 + k2 by omega]
      exact h3

theorem processRoomRecord_bad {w : WorldState} {rec : RoomRecord}
    (hb : roomRecordBad rec = true) : World.processRoomRecord w rec = none := by
  rw [processRoomRecord_char, extractRecord_bad hb]
  rfl

theorem loadRooms_bad : ∀ {recs : List RoomRecord} {w : WorldState}
    {rec : RoomRecord}, rec ∈ recs → roomRecordBad rec = true →
    World.loadRooms w recs = none := by
  intro recs
  induction recs with
  | nil => intro w rec hrec; simp at hrec
  | cons rec0 rest ih =>
    intro w rec hrec hb
    simp only [World.loadRooms]
    rcases List.mem_cons.mp hrec with h1 | h2
    · subst h1
      rw [processRoomRecord_bad hb]
    · cases hp : World.processRoomRecord w rec0 with
      | none => rfl
      | some w1 => exact ih h2 hb

/-! The lock resolver and the room operation surface. -/

theorem unlock_eq_none (k : Option Item) (r : RoomState) :
    Room.unlock k r = none := by
  cases k with
  | none => rfl
  | some it =>
    cases it with
    | obj n i d => rfl
    | key kid n i d => rfl

theorem applyRoomOp_lock {op : RoomOp} {r r' : RoomState}
    (h : applyRoomOp op r = some r') : r'.lock = r.lock := by
  cases op with
  | addItem i =>
    simp only [applyRoomOp, Option.some.injEq] at h
    subst h
    rfl
  | addItems l =>
    simp only [applyRoomOp, Option.some.injEq] at h
    subst h
    rfl
  | addNeighbour n =>
    simp only [applyRoomOp, Option.some.injEq] at h
    subst h
    rfl
  | addNeighbours ns =>
    simp only [applyRoomOp, Option.some.injEq] at h
    subst h
    rfl
  | addEntity e =>
    simp only [applyRoomOp, Option.some.injEq] at h
    subst h
    rfl
  | addEntities es =>
    simp only [applyRoomOp, Option.some.injEq] at h
    subst h
    rfl
  | unlockWith k =>
    rw [applyRoomOp, unlock_eq_none] at h
    cases h

theorem applyRoomOps_lock : ∀ {ops : List RoomOp} {r r' : RoomState},
    applyRoomOps ops r = some r' → r'.lock = r.lock := by
  intro ops
  induction ops with
  | nil =>
    intro r r' h
    simp only [applyRoomOps, Option.some.injEq] at h
    subst h
    rfl
  | cons op rest ih =>
    intro r r' h
    simp only [applyRoomOps] at h
    split at h
    · cases h
    · next r2 heq => rw [ih h, applyRoomOp_lock heq]

theorem firstConns_spec : ∀ {recs : List RoomRecord} {k : Nat}
    {rec : RoomRecord} {i : Int}, recs[k]? = some rec →
    recExtractId rec = some i →
    (∀ rec' ∈ recs, ∃ p, extractRecord rec' = some p) →
    (∃ vs, firstConns recs i = some vs) ∧
    ((∀ k' rec', k' < k → recs[k']? = some rec' → recExtractId rec' ≠ some i) →
      firstConns recs i = recExtractConns rec) := by
  intro recs
  induction recs with
  | nil => intro k rec i hk; simp at hk
  | cons rec0 rest ih =>
    intro k rec i hk hid hfields
    have hconns0 : ∃ vs, recExtractConns rec0 = some vs := by
      obtain ⟨p, hp⟩ := hfields rec0 (List.mem_cons_self _ _)
      obtain ⟨_, _, _, _, ⟨conns, hc, _⟩, _⟩ := extractRecord_spec hp
      exact ⟨World.trackConnections conns, by simp [recExtractConns, hc]⟩
    by_cases h0 : recExtractId rec0 = some i
    · have hfc : firstConns (rec0 :: rest) i = recExtractConns rec0 := by
        simp [firstConns, h0]
      cases k with
      | zero =>
        simp only [List.getElem?_cons_zero, Option.some.injEq] at hk
        subst hk
        exact ⟨by rw [hfc]; exact hconns0, fun _ => hfc⟩
      | succ k2 =>
        refine ⟨by rw [hfc]; exact hconns0, ?_⟩
        intro hno
        exact absurd h0 (hno 0 rec0 (by omega) (by simp))
    · have hfc : firstConns (rec0 :: rest) i = firstConns rest i := by
        simp [firstConns, h0]
      cases k with
      | zero =>
        simp only [List.getElem?_cons_zero, Option.some.injEq] at hk
        subst hk
        exact absurd hid h0
      | succ k2 =>
        simp only [List.getElem?_cons_succ] at hk
        have hres := ih hk hid
          (fun rec' h' => hfields rec' (List.mem_cons_of_mem _ h'))
        refine ⟨by rw [hfc]; exact hres.1, ?_⟩
        intro hno
        rw [hfc]
        refine hres.2 ?_
        intro k' rec' hlt hget
        exact hno (k' + 1) rec' (by omega) (by simpa using hget)

/-! The claims. -/

/-- C1: the claim says tryUnlock (Room::unlock) succeeds exactly when the
candidate is a Key whose unlock identifier equals the room id, unlocking the
room and consuming the key, and leaves the lock unchanged on failure.  The
code instead calls k.release() and then reads k->getID() through the emptied
handle whenever the item is a Key, and dereferences the null result of
dynamic_cast<Key*> for any non-Key item: every call runs into a null-pointer
dereference and never returns, so the claimed contract is unrealisable in
the code as written (the comparison also reads Object::getID, the item id,
never the Key keyID, which has no accessor). -/
theorem unlock_never_returns :
    ∀ (k : Option Item) (r : RoomState), Room.unlock k r = none :=
  fun k r => unlock_eq_none k r

/-- C3: the claim says a failed tryUnlock reports failure and hands a valid
item back through the same handle, preserved as a Plain item.  For a plain
Object (and for an empty handle) the failure path computes
dynamic_cast<Object*>(k2r) with k2r null and dereferences it while copying,
so nothing is ever handed back: both evaluations below crash (none). -/
theorem unlock_failure_path_crashes :
    Room.unlock (some (Object.construct "torch" 10 "a plain object"))
        (Room.construct "Cell" 1 "a cell") = none ∧
    Room.unlock none (Room.construct "Cell" 1 "a cell") = none :=
  ⟨rfl, rfl⟩

/-- C2: after connectRooms, for every (parent, neighbor) pair of the
connection map whose two ids both resolve in the registry, the parent room
(at the first index whose id matches) holds the resolved neighbor in its
neighbour collection; and every room is changed only by appending neighbour
edges, each of which is justified by a resolvable (parent id, neighbor id)
pair of the map, so entries with an absent id add no edge and raise no error
while the remaining neighbor ids of the same entry are still processed. -/
theorem connectRooms_edges :
    (∀ (w : WorldState) (pid : Int) (ns : List Int) (nid : Int) (pi ci : Nat),
        (pid, ns) ∈ w.roomConnectionMap → nid ∈ ns →
        lookupRoomIdx w.worldRooms pid = some pi →
        lookupRoomIdx w.worldRooms nid = some ci →
        ∃ r r', w.worldRooms[pi]? = some r ∧
          (World.connectRooms w).worldRooms[pi]? = some r' ∧
          ci ∈ r'.neighbours) ∧
    (∀ (w : WorldState) (j : Nat) (r : RoomState),
        w.worldRooms[j]? = some r →
        ∃ ext, (World.connectRooms w).worldRooms[j]? =
            some { r with neighbours := r.neighbours ++ ext } ∧
          ∀ e ∈ ext, ∃ pid ns nid, (pid, ns) ∈ w.roomConnectionMap ∧
            nid ∈ ns ∧ lookupRoomIdx w.worldRooms pid = some j ∧
            lookupRoomIdx w.worldRooms nid = some e) := by
  constructor
  · intro w pid ns nid pi ci hmem hnid hp hc
    obtain ⟨r, hr, _, _⟩ := lookupRoomIdx_spec hp
    refine ⟨r, _, hr, connectEntries_char w.roomConnectionMap w.worldRooms pi r hr, ?_⟩
    simp only [List.mem_append]
    right
    exact edgesFor_mem hmem hp hnid hc
  · intro w j r hr
    refine ⟨edgesFor w.worldRooms w.roomConnectionMap j,
      connectEntries_char w.roomConnectionMap w.worldRooms j r hr, ?_⟩
    intro e he
    exact edgesFor_justified he

/-- C2 witness: in the two-room world wEx, map entry (1, [2, 99]) resolves
parent id 1 to index 0 and neighbor id 2 to index 1 (99 resolves to
nothing), and after connectRooms room 0 holds 1 among its neighbours. -/
theorem connectRooms_edges_witness :
    ∃ r r', wEx.worldRooms[0]? = some r ∧
      (World.connectRooms wEx).worldRooms[0]? = some r' ∧
      1 ∈ r'.neighbours :=
  connectRooms_edges.1 wEx 1 [2, 99] 2 0 1 (by decide) (by decide)
    (by decide) (by decide)

/-- C10: when two rooms share an id, every lookup of that id in
connectRooms resolves to the first room in registry order bearing it: the
lookup index is at most the first duplicate index and nothing before it
matches, the later duplicate room is left entirely unchanged by
connectRooms, and no room gains an edge pointing at the later duplicate. -/
theorem connectRooms_first_match_wins :
    ∀ (w : WorldState) (i j : Nat) (ri rj : RoomState), i < j →
      w.worldRooms[i]? = some ri → w.worldRooms[j]? = some rj →
      ri.roomID = rj.roomID →
      (∃ m, lookupRoomIdx w.worldRooms rj.roomID = some m ∧ m ≤ i ∧
        (∃ rm, w.worldRooms[m]? = some rm ∧ rm.roomID = rj.roomID) ∧
        ∀ m' rm', m' < m → w.worldRooms[m']? = some rm' →
          rm'.roomID ≠ rj.roomID) ∧
      (World.connectRooms w).worldRooms[j]? = some rj ∧
      (∀ (p : Nat) (r : RoomState), w.worldRooms[p]? = some r →
        ∃ ext, (World.connectRooms w).worldRooms[p]? =
            some { r with neighbours := r.neighbours ++ ext } ∧ j ∉ ext) := by
  intro w i j ri rj hij hi hj hid
  have hnotj : ∀ pid, lookupRoomIdx w.worldRooms pid ≠ some j := by
    intro pid hc
    obtain ⟨rm, hrm, hrmid, hleast⟩ := lookupRoomIdx_spec hc
    rw [hj] at hrm
    injection hrm with hrm2
    subst hrm2
    exact hleast i ri hij hi (by rw [hid, hrmid])
  refine ⟨?_, ?_, ?_⟩
  · obtain ⟨m, hm, hmi⟩ := lookupRoomIdx_of_getElem hi
    rw [hid] at hm
    obtain ⟨rm, hrm, hrmid, hleast⟩ := lookupRoomIdx_spec hm
    exact ⟨m, hm, hmi, ⟨rm, hrm, hrmid⟩,
      fun m' rm' hlt hget => hleast m' rm' hlt hget⟩
  · have hch := connectEntries_char w.roomConnectionMap w.worldRooms j rj hj
    rw [edgesFor_nil_of hnotj] at hch
    obtain ⟨nm, rid2, dsc, lk, pop, nb, inv⟩ := rj
    simpa using hch
  · intro p r hr
    refine ⟨edgesFor w.worldRooms w.roomConnectionMap p,
      connectEntries_char w.roomConnectionMap w.worldRooms p r hr, ?_⟩
    intro hmem
    obtain ⟨pid, ns, nid, _, _, _, hlnid⟩ := edgesFor_justified hmem
    exact hnotj nid hlnid

/-- C10 witness: in wDup both rooms carry id 7; after connectRooms the later
duplicate (index 1) is untouched: its neighbour list is still empty even
though the map connects 7 to 7. -/
theorem connectRooms_first_match_wins_witness :
    (World.connectRooms wDup).worldRooms[1]? =
      some (Room.construct "B" 7 "b") :=
  (connectRooms_first_match_wins wDup 0 1 (Room.construct "A" 7 "a")
    (Room.construct "B" 7 "b") (by decide) (by decide) (by decide) rfl).2.1

/-- C4 counterexample: two records both carry id 1, with connection lists
[2] and [3].  Both rooms are built, but std::map::insert does not overwrite,
so the map entry for id 1 keeps the first record list [2]: for the second
successfully built record the map value is not its own connections block
[3], refuting the claim as stated. -/
theorem loadRooms_duplicate_id_keeps_first_conns :
    World.loadRooms World.empty [cRecA, cRecB] = some cWAB ∧
    cWAB.worldRooms.map (fun r => r.roomID) = [1, 1] ∧
    recExtractId cRecB = some 1 ∧
    recExtractConns cRecB = some [3] ∧
    mapLookup cWAB.roomConnectionMap 1 = some [2] ∧
    some ([2] : List Int) ≠ some ([3] : List Int) := by
  refine ⟨by decide, by decide, by decide, by decide, by decide, by decide⟩

/-- C4 amended: after loadRooms every successfully built room carries the id
extracted from its record (in document order), and that id is a key of the
connection map; the value under the key is exactly the extracted neighbor id
list, in order, of the FIRST record bearing that id — a record whose id
duplicates an earlier one is built as a room but does not overwrite the
existing map entry. -/
theorem loadRooms_ids_and_connection_map :
    ∀ (recs : List RoomRecord) (w' : WorldState),
      World.loadRooms World.empty recs = some w' →
      List.Forall₂ (fun rec rm => recExtractId rec = some rm.roomID) recs
        w'.worldRooms ∧
      ∀ (k : Nat) (rec : RoomRecord) (i : Int), recs[k]? = some rec →
        recExtractId rec = some i →
        (∃ vs, mapLookup w'.roomConnectionMap i = some vs) ∧
        ((∀ k' rec', k' < k → recs[k']? = some rec' →
            recExtractId rec' ≠ some i) →
          mapLookup w'.roomConnectionMap i = recExtractConns rec) := by
  intro recs w' h
  constructor
  · obtain ⟨nr, hr, hfa⟩ := loadRooms_ids h
    simpa [World.empty] using hr ▸ hfa
  · intro k rec i hk hid
    have hmap := loadRooms_map_char recs
      (show mapSorted World.empty.roomConnectionMap = true from rfl) h i
    have hmap2 : mapLookup w'.roomConnectionMap i = firstConns recs i := by
      rw [hmap]
      rfl
    have hfc := firstConns_spec hk hid (loadRooms_fields h)
    exact ⟨by rw [hmap2]; exact hfc.1, fun hno => by rw [hmap2]; exact hfc.2 hno⟩

/-- C4 witness: loading cRecA then cRecB, record 0 (id 1, no earlier
duplicate) has its connection list [2] as the map value under key 1. -/
theorem loadRooms_ids_and_connection_map_witness :
    mapLookup cWAB.roomConnectionMap 1 = recExtractConns cRecA :=
  ((loadRooms_ids_and_connection_map [cRecA, cRecB] cWAB (by decide)).2
    0 cRecA 1 (by decide) (by decide)).2
    (fun k' rec' hlt _ => absurd hlt (Nat.not_lt_zero k'))

/-- C5 counterexample: a record whose id element is present but holds
non-integer text is NOT fatal, refuting the claim for that case:
QueryIntText reports failure, the loader ignores the return value, the room
is built with the pre-initialised id 0 and the world is published. -/
theorem nonInteger_id_not_fatal :
    World.loadRooms World.empty [cRecNI] = some cWNI ∧
    cWNI.worldRooms.map (fun r => r.roomID) = [0] := by
  exact ⟨by decide, by decide⟩

/-- C5 amended: a room, item, or entity record missing a required child
(name, description, or the id element itself) aborts the whole load with no
partial world (the extraction dereferences the missing child); but an id
element present with non-integer text is not fatal: the id silently becomes
0 and the load continues. -/
theorem missing_field_fatal_but_nonInteger_id_not :
    (∀ (w : WorldState) (recs : List RoomRecord) (rec : RoomRecord),
        rec ∈ recs → roomRecordBad rec = true →
        World.loadRooms w recs = none) ∧
    (∀ (w : WorldState) (n d : String) (conns : List (Option Int)),
        World.loadRooms w
          [RoomRecord.mk (some n) (some d) (some none) (some [])
            (some conns) []] =
        some (WorldState.mk w.title
          (w.worldRooms ++ [RoomState.mk n 0 d LockStatus.locked [] [] []])
          w.population
          (mapInsert w.roomConnectionMap 0 (World.trackConnections conns)))) := by
  constructor
  · intro w recs rec hmem hbad
    exact loadRooms_bad hmem hbad
  · intro w n d conns
    simp only [World.loadRooms, processRoomRecord_char]
    have he : extractRecord (RoomRecord.mk (some n) (some d) (some none)
        (some []) (some conns) []) =
        some (RecParts.mk n d 0 [] (World.trackConnections conns) []) := rfl
    rw [he]
    obtain ⟨t, rs, pop, m⟩ := w
    simp [buildFromParts, builtRoom, idxRange]

/-- C5 witness: a record with a missing name element makes the whole load
return none. -/
theorem missing_field_fatal_witness :
    World.loadRooms World.empty [cRecBadName] = none :=
  missing_field_fatal_but_nonInteger_id_not.1 World.empty [cRecBadName]
    cRecBadName (by decide) (by decide)

/-- C6: after loadRooms, every entity record nested under room record k
yields an entity that sits at some index of the World population registry
and that same index is recorded in room k's population: both the global
registry and the room reference the one shared entity. -/
theorem loadRooms_entity_shared :
    ∀ (recs : List RoomRecord) (w' : WorldState),
      World.loadRooms World.empty recs = some w' →
      ∀ (k : Nat) (rec : RoomRecord), recs[k]? = some rec →
      ∀ (j : Nat) (erec : EntRecord), rec.entityRecords[j]? = some erec →
      ∃ idx ent room, extractEntity erec = some ent ∧
        w'.population[idx]? = some ent ∧ w'.worldRooms[k]? = some room ∧
        idx ∈ room.roomPopulation := by
  intro recs w' h k rec hk j erec hj
  have hres := loadRooms_entity_placement h hk hj
  simpa [World.empty] using hres

/-- C6 witness: loading cRecEnt, the pilot entity is population slot 0 and
room 0 records index 0 in its population. -/
theorem loadRooms_entity_shared_witness :
    ∃ idx ent room,
      extractEntity { name := some "pilot", inventory := some [] } = some ent ∧
      cWEnt.population[idx]? = some ent ∧ cWEnt.worldRooms[0]? = some room ∧
      idx ∈ room.roomPopulation :=
  loadRooms_entity_shared [cRecEnt] cWEnt (by decide) 0 cRecEnt (by decide)
    0 { name := some "pilot", inventory := some [] } (by decide)

/-- C7: Entity::addItem and Room::addItem move the caller-held item into the
inventory: afterwards the inventory holds exactly the old contents plus that
one item, and the handle returned to the caller is null (the moved-from
unique_ptr), so exactly one container references the item, with no
duplication and no dangling reference. -/
theorem addItem_transfers_ownership :
    ∀ (e : EntityState) (r : RoomState) (it : Item),
      (e.addItem (some it)).1.inventory = e.inventory ++ [some it] ∧
      (e.addItem (some it)).2 = none ∧
      (r.addItem (some it)).1.inventory = r.inventory ++ [some it] ∧
      (r.addItem (some it)).2 = none :=
  fun _ _ _ => ⟨rfl, rfl, rfl, rfl⟩

/-- C8: the Room lock state machine has exactly the two states locked and
unlocked; every Room is constructed locked; a core operation that changes
the lock could only be a successful unlock (in fact no defined core
operation changes the lock at all, since Room::unlock never returns, see
C1); and no sequence of core operations ever moves a room from unlocked
back to locked. -/
theorem lock_state_machine :
    (∀ s : LockStatus, s = LockStatus.locked ∨ s = LockStatus.unlocked) ∧
    (∀ (n : String) (id : Int) (d : String),
      (Room.construct n id d).lock = LockStatus.locked) ∧
    (∀ (op : RoomOp) (r r' : RoomState), applyRoomOp op r = some r' →
      r'.lock ≠ r.lock →
      r.lock = LockStatus.locked ∧ r'.lock = LockStatus.unlocked ∧
      ∃ k, op = RoomOp.unlockWith k ∧
        ∃ res, Room.unlock k r = some res ∧ res.1 = true) ∧
    (∀ (ops : List RoomOp) (r r' : RoomState),
      r.lock = LockStatus.unlocked → applyRoomOps ops r = some r' →
      r'.lock = LockStatus.unlocked) := by
  refine ⟨?_, ?_, ?_, ?_⟩
  · intro s
    cases s
    · exact Or.inl rfl
    · exact Or.inr rfl
  · intro n id d
    rfl
  · intro op r r' h hne
    exact absurd (applyRoomOp_lock h) hne
  · intro ops r r' hu h
    rw [applyRoomOps_lock h, hu]

/-- C8 witness: an unlocked room stays unlocked across a core operation. -/
theorem lock_state_machine_witness : cRoomU2.lock = LockStatus.unlocked :=
  lock_state_machine.2.2.2 [RoomOp.addItem none] cRoomU cRoomU2 rfl rfl

/-- C9 counterexample: the claim says construction with an empty name is
rejected; the constructors of Object, Entity and Room perform no validation
at all, and an empty name yields a perfectly valid instance. -/
theorem empty_name_construction_accepted :
    Object.construct "" 0 "" = Item.obj "" 0 "" ∧
    (Object.construct "" 0 "").getName = "" ∧
    (Entity.construct "").name = "" ∧
    (Room.construct "" 0 "").roomName = "" ∧
    (Room.construct "" 0 "").roomID = 0 :=
  ⟨rfl, rfl, rfl, rfl, rfl⟩

/-- C9 amended: the Object, Entity and Room constructors accept any
arguments, including an empty name, with no validation: they always produce
an instance storing exactly the given identity fields (and a Room always
starts locked). -/
theorem constructors_store_fields_unvalidated :
    ∀ (n : String) (id : Int) (d : String),
      (Object.construct n id d).getName = n ∧
      (Object.construct n id d).getID = id ∧
      (Object.construct n id d).getDescription = d ∧
      (Entity.construct n).name = n ∧
      (Entity.construct n).inventory = [] ∧
      (Room.construct n id d).roomName = n ∧
      (Room.construct n id d).roomID = id ∧
      (Room.construct n id d).description = d ∧
      (Room.construct n id d).lock = LockStatus.locked :=
  fun _ _ _ => ⟨rfl, rfl, rfl, rfl, rfl, rfl, rfl, rfl, rfl⟩

end SpaceWalk
